import Mathlib

/-!
Verification development for the graph-expansion crawler of
`build_graph.py` (InvestopediaDownload).

The crawler's Python dictionaries are embedded as association lists with
first-match lookup and in-place assignment, mirroring `dict` semantics.
The filesystem and the network are embedded as explicit data threaded
through the functions: the disk maps a file path to the extraction result
of the stored HTML (the list of (display text, href) pairs that
BeautifulSoup's two `find_all` queries would return on it), and the web
maps a URL to the extraction result of the page it serves (a URL absent
from the web is a failed request, i.e. a non-200 status in
`download.get_article`).  Fetch attempts and recursive invocations are
returned as explicit logs so that side effects are observable.
-/

set_option autoImplicit false

namespace InvestopediaGraph

/-- Extraction result of an HTML document: the (display text, href) pairs
of the related-term and related-article anchors, in document order. -/
abbrev Content := List (String × String)

/-- The network: URL to the content it serves; absent = request fails. -/
abbrev Web := List (String × Content)

/-- The local filesystem: file path to the content stored there. -/
abbrev Disk := List (String × Content)

/-- One entry of the article map: `{"path": ..., "link": ...}`. -/
structure ArticleData where
  path : String
  link : String
deriving DecidableEq, Repr

/-- The article map (`article_map` / `expanded_map`): identifier to record. -/
abbrev Registry := List (String × ArticleData)

/-- The graph / graph submaps: identifier to list of referenced names. -/
abbrev Graph := List (String × List String)

/-- Python `dict` lookup on an association list: first matching key wins. -/
def mlookup {α : Type} : List (String × α) → String → Option α
  | [], _ => none
  | (k, v) :: rest, a => if k = a then some v else mlookup rest a

/-- Python `dict` assignment `m[k] = v`: replace the first entry with key
`k`, or append a new entry at the end (dicts keep insertion order). -/
def mset {α : Type} : List (String × α) → String → α → List (String × α)
  | [], k, v => [(k, v)]
  | (k', v') :: rest, k, v =>
    if k' = k then (k, v) :: rest else (k', v') :: mset rest k v

/-- Python `m.update(sub)`: assign every entry of `sub` into `m` in order. -/
def dictUpdate {α : Type} (m sub : List (String × α)) : List (String × α) :=
  sub.foldl (fun acc kv => mset acc kv.1 kv.2) m

/-- The edge-merge step used at `build_graph.py` lines 144-151, 178-182 and
305-309: `if k in g: g[k] += vs else: g[k] = vs`. -/
def graphAdd : Graph → String → List String → Graph
  | [], k, vs => [(k, vs)]
  | (k', vs') :: rest, k, vs =>
    if k' = k then (k', vs' ++ vs) :: rest else (k', vs') :: graphAdd rest k vs

/-- The merge loop over a returned graph submap (lines 178-182 / 305-309). -/
def mergeGraphInto (g sub : Graph) : Graph :=
  sub.foldl (fun acc kv => graphAdd acc kv.1 kv.2) g

/-- The collapse `g[k] = list(set(v))` applied to every entry
(lines 196-197 and 323-324), with `List.dedup` as the deterministic
representative of Python's `list(set(...))`. -/
def dedupAll (g : Graph) : Graph := g.map (fun kv => (kv.1, kv.2.dedup))

/-- The edge-set recorded for key `k` ([] when the key is absent). -/
def edges (g : Graph) (k : String) : List String := (mlookup g k).getD []

/-- The key list of an association list, in order. -/
def keysOf {α : Type} (m : List (String × α)) : List String := m.map Prod.fst

/-- `article.replace("/", "-")` (line 70): `str.replace` with a
single-character pattern is character-wise substitution. -/
def cleanName (s : String) : String :=
  ⟨s.data.map (fun c => if c = '/' then '-' else c)⟩

/-- `f"./data/{'term' if is_term else 'article'}/"` (line 54). -/
def relatedFolder (is_term : Bool) : String :=
  if is_term then "./data/term/" else "./data/article/"

/-- The mutable world `explore_related` reads and writes: the shared
article map and the filesystem. -/
structure CrawlState where
  articleMap : Registry
  disk : Disk
deriving DecidableEq, Repr

/-- `download.get_article(article_link, file_path)`: request the URL; on
failure print and leave the disk alone, on success write the content to
`file_path` (mode `w+`, overwriting). -/
def get_article (web : Web) (article_link file_path : String)
    (st : CrawlState) : CrawlState :=
  match mlookup web article_link with
  | none => st
  | some content => { st with disk := mset st.disk file_path content }

/-- `article_map[article]["path"]` (line 96); the `""` default is the
unreachable KeyError case (the key is always present at that line). -/
def mapPath (m : Registry) (a : String) : String :=
  match mlookup m a with
  | some d => d.path
  | none => ""

/-- Result of the download/load section of `explore_related`
(lines 56-96): updated state, the registry delta so far, the resolved
`article_path`, and the fetch attempts made. -/
structure FetchRes where
  st : CrawlState
  asub : Registry
  path : String
  fetches : List (String × String)
deriving DecidableEq, Repr

/-- Lines 60-96 of `explore_related`: decide whether to download, insert
the record for an unseen article into both the submap and the shared map
(lines 78-83) before downloading (line 89), then re-read the path from
the shared map (line 96). -/
def exploreFetchPhase (web : Web) (restart : Bool) (st : CrawlState)
    (article article_url : String) (is_term : Bool) : FetchRes :=
  let article_unseen := (mlookup st.articleMap article).isNone
  let step : CrawlState × Registry × List (String × String) :=
    if restart || article_unseen then
      if article_unseen then
        let article_path :=
          relatedFolder is_term ++ cleanName article ++ ".html"
        let article_data : ArticleData := ⟨article_path, article_url⟩
        let st1 : CrawlState :=
          { st with articleMap := mset st.articleMap article article_data }
        (get_article web article_url article_path st1,
          [(article, article_data)], [(article_url, article_path)])
      else
        let article_path := mapPath st.articleMap article
        (get_article web article_url article_path st, [],
          [(article_url, article_path)])
    else (st, [], [])
  ⟨step.1, step.2.1, mapPath step.1.articleMap article, step.2.2⟩

/-- Result of one `explore_related` invocation: final state, the two
returned submaps, and the logs of fetch attempts and of every
`(article, depth)` invocation made (the invocation itself included). -/
structure ExpRes where
  st : CrawlState
  asub : Registry
  gsub : Graph
  fetches : List (String × String)
  calls : List (String × Nat)
deriving DecidableEq, Repr

/-- The fan-out loop over `outbound_links` (lines 161-189): run `f` on
each link in order, merging the returned submaps with
`article_submap.update(...)` and the `graphAdd` loop. -/
def explore_children (f : CrawlState → String → String → Bool → ExpRes) :
    List (String × String × Bool) → ExpRes → ExpRes
  | [], acc => acc
  | (name, href, t) :: rest, acc =>
    let r := f acc.st name href t
    explore_children f rest
      ⟨r.st, dictUpdate acc.asub r.asub, mergeGraphInto acc.gsub r.gsub,
        acc.fetches ++ r.fetches, acc.calls ++ r.calls⟩

/-- `explore_related` (lines 21-200).  The download/load section is
`exploreFetchPhase`; a missing local file returns the submaps as they
stand (line 104, before any graph entry is made); otherwise the content's
links become `outbound_links` (both `find_all` groups tag their links
with `True`, lines 124-141), the edge list for `article` is recorded
(lines 143-151, `graph_submap` is empty there), recursion runs only when
`depth > 0` (line 159), and every edge list is collapsed before the
return (lines 195-197). -/
def explore_related (web : Web) :
    Nat → Bool → CrawlState → String → String → Bool → ExpRes
  | depth, restart, st, article, article_url, is_term =>
    let fp := exploreFetchPhase web restart st article article_url is_term
    match mlookup fp.st.disk fp.path with
    | none => ⟨fp.st, fp.asub, [], fp.fetches, [(article, depth)]⟩
    | some content =>
      let outbound_links := content.map (fun p => (p.1, p.2, true))
      let gsub0 := graphAdd [] article (outbound_links.map (fun l => l.1))
      let res : ExpRes :=
        match depth with
        | 0 => ⟨fp.st, fp.asub, gsub0, fp.fetches, []⟩
        | d + 1 =>
          explore_children
            (fun s n h t => explore_related web d restart s n h t)
            outbound_links ⟨fp.st, fp.asub, gsub0, fp.fetches, []⟩
      ⟨res.st, res.asub, dedupAll res.gsub, res.fetches,
        (article, depth) :: res.calls⟩

/-- Result of the driver's seed loop: final state, accumulated graph,
and the fetch/call logs of the whole traversal. -/
structure MainRes where
  st : CrawlState
  graph : Graph
  fetches : List (String × String)
  calls : List (String × Nat)
deriving DecidableEq, Repr

/-- The seed loop of `main` (lines 276-316): for each seed read its path
and link from the original seed map, skip it if its local file is absent,
otherwise run `explore_related` and merge the returned submaps into the
shared map and the graph. -/
def mainLoop (web : Web) (depth : Nat) (restart : Bool)
    (article_map : Registry) :
    List String → CrawlState → Graph → MainRes
  | [], st, graph => ⟨st, graph, [], []⟩
  | article :: rest, st, graph =>
    match mlookup article_map article with
    | none => mainLoop web depth restart article_map rest st graph
    | some r =>
      if (mlookup st.disk r.path).isNone then
        mainLoop web depth restart article_map rest st graph
      else
        let er := explore_related web depth restart st article r.link true
        let st2 : CrawlState :=
          { er.st with articleMap := dictUpdate er.st.articleMap er.asub }
        let mr := mainLoop web depth restart article_map rest st2
          (mergeGraphInto graph er.gsub)
        ⟨mr.st, mr.graph, er.fetches ++ mr.fetches, er.calls ++ mr.calls⟩

/-- Outcome of the driver `main` (lines 203-341): exit code, the two
artifacts it writes (absent when it aborts), and the traversal logs. -/
structure DriverResult where
  exitCode : Nat
  expandedMap : Option Registry
  graph : Option Graph
  fetches : List (String × String)
  calls : List (String × Nat)
deriving DecidableEq, Repr

/-- The driver `main`: abort with exit code 1 when the seed registry file
is absent (lines 247-250); otherwise deep-copy the seed map, seed the
graph with an empty edge list per seed (lines 271-272), run the seed
loop, collapse every edge list (lines 323-324), write both artifacts and
exit 0 (lines 326-341). -/
def main (web : Web) (seedFile : Option Registry) (disk0 : Disk)
    (depth : Nat) (restart : Bool) : DriverResult :=
  match seedFile with
  | none => ⟨1, none, none, [], []⟩
  | some article_map =>
    let mr := mainLoop web depth restart article_map (keysOf article_map)
      ⟨article_map, disk0⟩ (article_map.map (fun kv => (kv.1, [])))
    ⟨0, some mr.st.articleMap, some (dedupAll mr.graph), mr.fetches, mr.calls⟩

/-! ### Association-list lemmas -/

theorem mlookup_mset_self {α : Type} (m : List (String × α)) (k : String)
    (v : α) : mlookup (mset m k v) k = some v := by
  induction m with
  | nil => simp [mset, mlookup]
  | cons kv rest ih =>
    obtain ⟨k', v'⟩ := kv
    by_cases h : k' = k
    · simp [mset, h, mlookup]
    · simp [mset, h, mlookup, ih]

theorem mlookup_mset_ne {α : Type} (m : List (String × α)) (k k' : String)
    (v : α) (h : k ≠ k') : mlookup (mset m k v) k' = mlookup m k' := by
  induction m with
  | nil => simp [mset, mlookup, h]
  | cons kv rest ih =>
    obtain ⟨k0, v0⟩ := kv
    by_cases h0 : k0 = k
    · subst h0
      simp [mset, mlookup, h]
    · simp [mset, h0, mlookup, ih]

theorem mlookup_mem {α : Type} {m : List (String × α)} {k : String} {v : α}
    (h : mlookup m k = some v) : (k, v) ∈ m := by
  induction m with
  | nil => simp [mlookup] at h
  | cons kv rest ih =>
    obtain ⟨k0, v0⟩ := kv
    by_cases h0 : k0 = k
    · subst h0
      simp [mlookup] at h
      simp [h]
    · simp [mlookup, h0] at h
      exact List.mem_cons_of_mem _ (ih h)

theorem mlookup_eq_none_iff {α : Type} {m : List (String × α)} {k : String} :
    mlookup m k = none ↔ k ∉ keysOf m := by
  induction m with
  | nil => simp [mlookup, keysOf]
  | cons kv rest ih =>
    obtain ⟨k0, v0⟩ := kv
    by_cases h0 : k0 = k
    · subst h0
      simp [mlookup, keysOf]
    · simp only [mlookup, h0, if_false]
      rw [ih]
      simp [keysOf, Ne.symm h0]

theorem mem_mlookup {α : Type} {m : List (String × α)} {k : String} {v : α}
    (hnd : (keysOf m).Nodup) (h : (k, v) ∈ m) : mlookup m k = some v := by
  induction m with
  | nil => simp at h
  | cons kv rest ih =>
    obtain ⟨k0, v0⟩ := kv
    have hnd' : k0 ∉ keysOf rest ∧ (keysOf rest).Nodup := by
      simpa [keysOf] using hnd
    rcases List.mem_cons.mp h with h1 | h1
    · cases h1
      simp [mlookup]
    · by_cases hk : k0 = k
      · exfalso
        subst hk
        exact hnd'.1 (List.mem_map_of_mem Prod.fst h1)
      · simp only [mlookup, hk, if_false]
        exact ih hnd'.2 h1

theorem mem_mset {α : Type} {m : List (String × α)} {k : String} {v : α}
    {p : String × α} (h : p ∈ mset m k v) : p ∈ m ∨ p = (k, v) := by
  induction m with
  | nil => simp [mset] at h; simp [h]
  | cons kv rest ih =>
    obtain ⟨k0, v0⟩ := kv
    by_cases h0 : k0 = k
    · simp [mset, h0] at h
      rcases h with h | h
      · right; simp [h]
      · left; exact List.mem_cons_of_mem _ h
    · simp [mset, h0] at h
      rcases h with h | h
      · left; simp [h]
      · rcases ih h with h1 | h1
        · left; exact List.mem_cons_of_mem _ h1
        · right; exact h1

theorem mset_mem_of_mem {α : Type} {m : List (String × α)} (k : String)
    (v : α) {p : String × α} (hne : p.1 ≠ k) (h : p ∈ m) :
    p ∈ mset m k v := by
  induction m with
  | nil => simp at h
  | cons kv rest ih =>
    obtain ⟨k0, v0⟩ := kv
    by_cases h0 : k0 = k
    · subst h0
      simp [mset]
      rcases List.mem_cons.mp h with h1 | h1
      · exfalso; exact hne (by simp [h1])
      · right; exact h1
    · simp [mset, h0]
      rcases List.mem_cons.mp h with h1 | h1
      · left; exact h1
      · right; exact ih h1

theorem keysOf_mset_mem {α : Type} {m : List (String × α)} {k : String}
    (v : α) (h : k ∈ keysOf m) : keysOf (mset m k v) = keysOf m := by
  induction m with
  | nil => simp [keysOf] at h
  | cons kv rest ih =>
    obtain ⟨k0, v0⟩ := kv
    by_cases h0 : k0 = k
    · simp [mset, h0, keysOf]
    · simp [keysOf, h0] at h
      rcases h with h | h
      · exact absurd h.symm h0
      · simp [mset, h0, keysOf]
        simpa [keysOf] using ih (by simpa [keysOf] using h)

theorem mset_absent {α : Type} {m : List (String × α)} {k : String} (v : α)
    (h : mlookup m k = none) : mset m k v = m ++ [(k, v)] := by
  induction m with
  | nil => simp [mset]
  | cons kv rest ih =>
    obtain ⟨k0, v0⟩ := kv
    by_cases h0 : k0 = k
    · subst h0; simp [mlookup] at h
    · simp [mlookup, h0] at h
      simp [mset, h0, ih h]

theorem keysNodup_mset {α : Type} {m : List (String × α)} {k : String}
    (v : α) (hnd : (keysOf m).Nodup) : (keysOf (mset m k v)).Nodup := by
  by_cases h : k ∈ keysOf m
  · rw [keysOf_mset_mem v h]; exact hnd
  · rw [mset_absent v (mlookup_eq_none_iff.mpr h)]
    have hkeys : keysOf (m ++ [(k, v)]) = keysOf m ++ [k] := by simp [keysOf]
    rw [hkeys]
    refine hnd.append (List.nodup_singleton k) ?_
    intro x hx hx2
    simp at hx2
    subst hx2
    exact h hx

theorem mlookup_append_some {α : Type} {m m2 : List (String × α)}
    {k : String} {v : α} (h : mlookup m k = some v) :
    mlookup (m ++ m2) k = some v := by
  induction m with
  | nil => simp [mlookup] at h
  | cons kv rest ih =>
    obtain ⟨k0, v0⟩ := kv
    by_cases h0 : k0 = k
    · subst h0; simp [mlookup] at h ⊢; exact h
    · simp [mlookup, h0] at h ⊢; exact ih h

theorem mlookup_mset_pres {α : Type} {m : List (String × α)}
    {k k' : String} {v' : α} (v : α) (hk : mlookup m k = none)
    (h : mlookup m k' = some v') : mlookup (mset m k v) k' = some v' := by
  rw [mset_absent v hk]
  exact mlookup_append_some h

/-! ### Graph-merge lemmas -/

theorem edges_graphAdd_self (g : Graph) (k : String) (vs : List String) :
    edges (graphAdd g k vs) k = edges g k ++ vs := by
  induction g with
  | nil => simp [graphAdd, edges, mlookup]
  | cons kv rest ih =>
    obtain ⟨k0, vs0⟩ := kv
    by_cases h0 : k0 = k
    · subst h0
      simp [graphAdd, edges, mlookup]
    · simp [graphAdd, h0, edges, mlookup] at ih ⊢
      exact ih

theorem edges_graphAdd_ne (g : Graph) {k k' : String} (vs : List String)
    (h : k ≠ k') : edges (graphAdd g k vs) k' = edges g k' := by
  induction g with
  | nil => simp [graphAdd, edges, mlookup, h]
  | cons kv rest ih =>
    obtain ⟨k0, vs0⟩ := kv
    by_cases h0 : k0 = k
    · subst h0
      simp [graphAdd, edges, mlookup, h]
    · simp [graphAdd, h0, edges, mlookup] at ih ⊢
      by_cases h1 : k0 = k'
      · simp [h1]
      · simp [h1, ih]

theorem keysOf_graphAdd_mem {g : Graph} {k : String} (vs : List String)
    (h : k ∈ keysOf g) : keysOf (graphAdd g k vs) = keysOf g := by
  induction g with
  | nil => simp [keysOf] at h
  | cons kv rest ih =>
    obtain ⟨k0, vs0⟩ := kv
    by_cases h0 : k0 = k
    · simp [graphAdd, h0, keysOf]
    · simp [keysOf, h0] at h
      rcases h with h | h
      · exact absurd h.symm h0
      · simp [graphAdd, h0, keysOf]
        simpa [keysOf] using ih (by simpa [keysOf] using h)

theorem keysOf_graphAdd_absent {g : Graph} {k : String} (vs : List String)
    (h : k ∉ keysOf g) : keysOf (graphAdd g k vs) = keysOf g ++ [k] := by
  induction g with
  | nil => simp [graphAdd, keysOf]
  | cons kv rest ih =>
    obtain ⟨k0, vs0⟩ := kv
    simp [keysOf] at h
    by_cases h0 : k0 = k
    · exact absurd h0.symm h.1
    · simp [graphAdd, h0, keysOf]
      simpa [keysOf] using ih (by simpa [keysOf] using h.2)

theorem keysNodup_graphAdd {g : Graph} (k : String) (vs : List String)
    (hnd : (keysOf g).Nodup) : (keysOf (graphAdd g k vs)).Nodup := by
  by_cases h : k ∈ keysOf g
  · rw [keysOf_graphAdd_mem vs h]; exact hnd
  · rw [keysOf_graphAdd_absent vs h]
    refine hnd.append (List.nodup_singleton k) ?_
    intro x hx hx2
    simp at hx2
    subst hx2
    exact h hx

theorem mergeGraphInto_nil (g : Graph) : mergeGraphInto g [] = g := rfl

theorem mergeGraphInto_cons (g : Graph) (k : String) (vs : List String)
    (rest : Graph) :
    mergeGraphInto g ((k, vs) :: rest) = mergeGraphInto (graphAdd g k vs) rest :=
  rfl

theorem keysNodup_mergeGraphInto (g sub : Graph)
    (hnd : (keysOf g).Nodup) : (keysOf (mergeGraphInto g sub)).Nodup := by
  induction sub generalizing g with
  | nil => exact hnd
  | cons kv rest ih =>
    obtain ⟨k, vs⟩ := kv
    rw [mergeGraphInto_cons]
    exact ih _ (keysNodup_graphAdd k vs hnd)

theorem mem_edges_mergeGraphInto {g sub : Graph}
    (hnd : (keysOf sub).Nodup) (k : String) (x : String) :
    x ∈ edges (mergeGraphInto g sub) k ↔ x ∈ edges g k ∨ x ∈ edges sub k := by
  induction sub generalizing g with
  | nil => simp [mergeGraphInto_nil, edges, mlookup]
  | cons kv rest ih =>
    obtain ⟨k0, vs0⟩ := kv
    have hnd' : k0 ∉ keysOf rest ∧ (keysOf rest).Nodup := by
      simpa [keysOf] using hnd
    rw [mergeGraphInto_cons]
    rw [ih hnd'.2]
    by_cases h0 : k0 = k
    · subst h0
      rw [edges_graphAdd_self]
      have hrest : edges rest k0 = [] := by
        simp [edges, mlookup_eq_none_iff.mpr hnd'.1]
      have hcons : edges ((k0, vs0) :: rest) k0 = vs0 := by
        simp [edges, mlookup]
      rw [hrest, hcons]
      simp [List.mem_append]
    · rw [edges_graphAdd_ne g vs0 h0]
      have : edges ((k0, vs0) :: rest) k = edges rest k := by
        simp [edges, mlookup, h0]
      rw [this]

/-! ### dedupAll lemmas -/

theorem keysOf_dedupAll (g : Graph) : keysOf (dedupAll g) = keysOf g := by
  simp [dedupAll, keysOf]

theorem dedupAll_dedupAll (g : Graph) : dedupAll (dedupAll g) = dedupAll g := by
  simp only [dedupAll, List.map_map]
  apply List.map_congr_left
  intro kv _
  simp [List.dedup_idem]

theorem edges_dedupAll (g : Graph) (k : String) :
    edges (dedupAll g) k = (edges g k).dedup := by
  induction g with
  | nil => simp [dedupAll, edges, mlookup]
  | cons kv rest ih =>
    obtain ⟨k0, vs0⟩ := kv
    by_cases h0 : k0 = k
    · simp [dedupAll, edges, mlookup, h0]
    · simp only [dedupAll, List.map_cons] at ih ⊢
      simp [edges, mlookup, h0] at ih ⊢
      exact ih

theorem mem_dedupAll {g : Graph} {e : String × List String}
    (h : e ∈ dedupAll g) : ∃ vs : List String, e.2 = List.dedup vs := by
  simp [dedupAll] at h
  obtain ⟨a, b, _, he⟩ := h
  exact ⟨b, by rw [← he]⟩

/-! ### dictUpdate lemmas -/

theorem dictUpdate_nil {α : Type} (m : List (String × α)) :
    dictUpdate m [] = m := rfl

theorem dictUpdate_cons {α : Type} (m : List (String × α)) (k : String)
    (v : α) (rest : List (String × α)) :
    dictUpdate m ((k, v) :: rest) = dictUpdate (mset m k v) rest := rfl

theorem mem_dictUpdate {α : Type} {m sub : List (String × α)}
    {p : String × α} (h : p ∈ dictUpdate m sub) : p ∈ m ∨ p ∈ sub := by
  induction sub generalizing m with
  | nil => exact Or.inl h
  | cons kv rest ih =>
    obtain ⟨k, v⟩ := kv
    rw [dictUpdate_cons] at h
    rcases ih h with h1 | h1
    · rcases mem_mset h1 with h2 | h2
      · exact Or.inl h2
      · exact Or.inr (by simp [h2])
    · exact Or.inr (List.mem_cons_of_mem _ h1)

/-! ### Fetch-phase characterization -/

theorem get_article_articleMap (web : Web) (u p : String) (st : CrawlState) :
    (get_article web u p st).articleMap = st.articleMap := by
  unfold get_article
  cases mlookup web u <;> rfl

theorem exploreFetchPhase_seen_norestart {web : Web} {st : CrawlState}
    {a url : String} {t : Bool} {r : ArticleData}
    (h : mlookup st.articleMap a = some r) :
    exploreFetchPhase web false st a url t = ⟨st, [], r.path, []⟩ := by
  unfold exploreFetchPhase
  simp [h, mapPath]

theorem exploreFetchPhase_seen_restart {web : Web} {st : CrawlState}
    {a url : String} {t : Bool} {r : ArticleData}
    (h : mlookup st.articleMap a = some r) :
    exploreFetchPhase web true st a url t =
      ⟨get_article web url r.path st, [], r.path, [(url, r.path)]⟩ := by
  unfold exploreFetchPhase
  simp [h, mapPath, get_article_articleMap]

theorem exploreFetchPhase_unseen {web : Web} {restart : Bool}
    {st : CrawlState} {a url : String} {t : Bool}
    (h : mlookup st.articleMap a = none) :
    exploreFetchPhase web restart st a url t =
      ⟨get_article web url (relatedFolder t ++ cleanName a ++ ".html")
          (CrawlState.mk
            (mset st.articleMap a
              (ArticleData.mk (relatedFolder t ++ cleanName a ++ ".html") url))
            st.disk),
        [(a, ⟨relatedFolder t ++ cleanName a ++ ".html", url⟩)],
        relatedFolder t ++ cleanName a ++ ".html",
        [(url, relatedFolder t ++ cleanName a ++ ".html")]⟩ := by
  unfold exploreFetchPhase
  simp [h, mapPath, get_article_articleMap, mlookup_mset_self]

/-- The five registry facts about the fetch phase used across the
traversal inductions. -/
theorem exploreFetchPhase_A (web : Web) (restart : Bool) (st : CrawlState)
    (a url : String) (t : Bool) :
    (∀ k v, mlookup st.articleMap k = some v →
      mlookup (exploreFetchPhase web restart st a url t).st.articleMap k = some v) ∧
    (∀ p ∈ st.articleMap,
      p ∈ (exploreFetchPhase web restart st a url t).st.articleMap) ∧
    ((keysOf st.articleMap).Nodup →
      (keysOf (exploreFetchPhase web restart st a url t).st.articleMap).Nodup) ∧
    (∀ p ∈ (exploreFetchPhase web restart st a url t).asub,
      p ∈ (exploreFetchPhase web restart st a url t).st.articleMap) ∧
    (∀ k v, (k, v) ∈ (exploreFetchPhase web restart st a url t).asub →
      mlookup st.articleMap k = none) := by
  cases h : mlookup st.articleMap a with
  | some r =>
    cases restart with
    | false =>
      rw [exploreFetchPhase_seen_norestart h]
      refine ⟨fun k v hk => hk, fun p hp => hp, fun hnd => hnd, ?_, ?_⟩ <;> simp
    | true =>
      rw [exploreFetchPhase_seen_restart h]
      simp only [get_article_articleMap]
      refine ⟨fun k v hk => hk, fun p hp => hp, fun hnd => hnd, ?_, ?_⟩ <;> simp
  | none =>
    rw [exploreFetchPhase_unseen h]
    simp only [get_article_articleMap]
    refine ⟨?_, ?_, ?_, ?_, ?_⟩
    · intro k v hk
      exact mlookup_mset_pres _ h hk
    · intro p hp
      rw [mset_absent _ h]
      exact List.mem_append_left _ hp
    · intro hnd
      exact keysNodup_mset _ hnd
    · intro p hp
      simp at hp
      subst hp
      exact mlookup_mem (mlookup_mset_self st.articleMap a _)
    · intro k v hkv
      simp at hkv
      rw [hkv.1]
      exact h

/-! ### Fan-out loop lemmas -/

theorem explore_children_nil (f : CrawlState → String → String → Bool → ExpRes)
    (acc : ExpRes) : explore_children f [] acc = acc := rfl

theorem explore_children_cons (f : CrawlState → String → String → Bool → ExpRes)
    (n u : String) (b : Bool) (rest : List (String × String × Bool))
    (acc : ExpRes) :
    explore_children f ((n, u, b) :: rest) acc =
      explore_children f rest
        ⟨(f acc.st n u b).st, dictUpdate acc.asub (f acc.st n u b).asub,
          mergeGraphInto acc.gsub (f acc.st n u b).gsub,
          acc.fetches ++ (f acc.st n u b).fetches,
          acc.calls ++ (f acc.st n u b).calls⟩ := rfl

theorem explore_children_fetches_acc
    (f : CrawlState → String → String → Bool → ExpRes) :
    ∀ (links : List (String × String × Bool)) (acc : ExpRes),
      ∃ more, (explore_children f links acc).fetches = acc.fetches ++ more := by
  intro links
  induction links with
  | nil =>
    intro acc
    exact ⟨[], by simp [explore_children_nil]⟩
  | cons link rest ih =>
    obtain ⟨n, u, b⟩ := link
    intro acc
    rw [explore_children_cons]
    obtain ⟨m, hm⟩ := ih
      ⟨(f acc.st n u b).st, dictUpdate acc.asub (f acc.st n u b).asub,
        mergeGraphInto acc.gsub (f acc.st n u b).gsub,
        acc.fetches ++ (f acc.st n u b).fetches,
        acc.calls ++ (f acc.st n u b).calls⟩
    exact ⟨(f acc.st n u b).fetches ++ m, by simp [hm]⟩

theorem explore_children_calls_acc
    (f : CrawlState → String → String → Bool → ExpRes) :
    ∀ (links : List (String × String × Bool)) (acc : ExpRes),
      ∃ more, (explore_children f links acc).calls = acc.calls ++ more := by
  intro links
  induction links with
  | nil =>
    intro acc
    exact ⟨[], by simp [explore_children_nil]⟩
  | cons link rest ih =>
    obtain ⟨n, u, b⟩ := link
    intro acc
    rw [explore_children_cons]
    obtain ⟨m, hm⟩ := ih
      ⟨(f acc.st n u b).st, dictUpdate acc.asub (f acc.st n u b).asub,
        mergeGraphInto acc.gsub (f acc.st n u b).gsub,
        acc.fetches ++ (f acc.st n u b).fetches,
        acc.calls ++ (f acc.st n u b).calls⟩
    exact ⟨(f acc.st n u b).calls ++ m, by simp [hm]⟩

/-- Registry facts carried through the fan-out loop: lookups already in
the shared map persist, pairs of the map persist, key-nodup persists,
every pair of the accumulated registry delta is a pair of the shared map,
and every key of the delta was absent from the base map. -/
theorem explore_children_A
    (f : CrawlState → String → String → Bool → ExpRes)
    (hf : ∀ s n u b,
      (∀ k v, mlookup s.articleMap k = some v →
        mlookup (f s n u b).st.articleMap k = some v) ∧
      (∀ p ∈ s.articleMap, p ∈ (f s n u b).st.articleMap) ∧
      ((keysOf s.articleMap).Nodup → (keysOf (f s n u b).st.articleMap).Nodup) ∧
      (∀ p ∈ (f s n u b).asub, p ∈ (f s n u b).st.articleMap) ∧
      (∀ k v, (k, v) ∈ (f s n u b).asub → mlookup s.articleMap k = none)) :
    ∀ (links : List (String × String × Bool)) (acc : ExpRes)
      (base : CrawlState),
      (∀ k v, mlookup base.articleMap k = some v →
        mlookup acc.st.articleMap k = some v) →
      (∀ p ∈ acc.asub, p ∈ acc.st.articleMap) →
      (∀ k v, (k, v) ∈ acc.asub → mlookup base.articleMap k = none) →
      (∀ k v, mlookup acc.st.articleMap k = some v →
        mlookup (explore_children f links acc).st.articleMap k = some v) ∧
      (∀ p ∈ acc.st.articleMap,
        p ∈ (explore_children f links acc).st.articleMap) ∧
      ((keysOf acc.st.articleMap).Nodup →
        (keysOf (explore_children f links acc).st.articleMap).Nodup) ∧
      (∀ p ∈ (explore_children f links acc).asub,
        p ∈ (explore_children f links acc).st.articleMap) ∧
      (∀ k v, (k, v) ∈ (explore_children f links acc).asub →
        mlookup base.articleMap k = none) := by
  intro links
  induction links with
  | nil =>
    intro acc base _ h2 h3
    rw [explore_children_nil]
    exact ⟨fun k v hk => hk, fun p hp => hp, fun hnd => hnd, h2, h3⟩
  | cons link rest ih =>
    obtain ⟨n, u, b⟩ := link
    intro acc base hbase hasub hfresh
    obtain ⟨f1, f2, f3, f4, f5⟩ := hf acc.st n u b
    rw [explore_children_cons]
    have hbase' : ∀ k v, mlookup base.articleMap k = some v →
        mlookup (f acc.st n u b).st.articleMap k = some v :=
      fun k v hk => f1 k v (hbase k v hk)
    have hasub' : ∀ p ∈ dictUpdate acc.asub (f acc.st n u b).asub,
        p ∈ (f acc.st n u b).st.articleMap := by
      intro p hp
      rcases mem_dictUpdate hp with h1 | h1
      · exact f2 p (hasub p h1)
      · exact f4 p h1
    have hfresh' : ∀ k v, (k, v) ∈ dictUpdate acc.asub (f acc.st n u b).asub →
        mlookup base.articleMap k = none := by
      intro k v hkv
      rcases mem_dictUpdate hkv with h1 | h1
      · exact hfresh k v h1
      · cases hb : mlookup base.articleMap k with
        | none => rfl
        | some v' =>
          have := hbase k v' hb
          rw [f5 k v h1] at this
          exact absurd this (by simp)
    obtain ⟨c1, c2, c3, c4, c5⟩ := ih
      ⟨(f acc.st n u b).st, dictUpdate acc.asub (f acc.st n u b).asub,
        mergeGraphInto acc.gsub (f acc.st n u b).gsub,
        acc.fetches ++ (f acc.st n u b).fetches,
        acc.calls ++ (f acc.st n u b).calls⟩
      base hbase' hasub' hfresh'
    refine ⟨?_, ?_, ?_, c4, c5⟩
    · intro k v hk
      exact c1 k v (f1 k v hk)
    · intro p hp
      exact c2 p (f2 p hp)
    · intro hnd
      exact c3 (f3 hnd)

/-- Registry facts about a whole `explore_related` invocation: known
lookups persist, pairs of the shared map persist, key-nodup persists,
every pair of the returned registry delta is a pair of the shared map at
return time, and every key of the delta was absent from the map at entry. -/
theorem explore_A (web : Web) :
    ∀ (d : Nat) (restart : Bool) (st : CrawlState) (a url : String) (t : Bool),
      (∀ k v, mlookup st.articleMap k = some v →
        mlookup (explore_related web d restart st a url t).st.articleMap k = some v) ∧
      (∀ p ∈ st.articleMap,
        p ∈ (explore_related web d restart st a url t).st.articleMap) ∧
      ((keysOf st.articleMap).Nodup →
        (keysOf (explore_related web d restart st a url t).st.articleMap).Nodup) ∧
      (∀ p ∈ (explore_related web d restart st a url t).asub,
        p ∈ (explore_related web d restart st a url t).st.articleMap) ∧
      (∀ k v, (k, v) ∈ (explore_related web d restart st a url t).asub →
        mlookup st.articleMap k = none) := by
  intro d
  induction d with
  | zero =>
    intro restart st a url t
    obtain ⟨g1, g2, g3, g4, g5⟩ := exploreFetchPhase_A web restart st a url t
    rw [explore_related]
    simp only []
    cases hdisk : mlookup (exploreFetchPhase web restart st a url t).st.disk
        (exploreFetchPhase web restart st a url t).path with
    | none => exact ⟨g1, g2, g3, g4, g5⟩
    | some content => exact ⟨g1, g2, g3, g4, g5⟩
  | succ dd ihd =>
    intro restart st a url t
    obtain ⟨g1, g2, g3, g4, g5⟩ := exploreFetchPhase_A web restart st a url t
    rw [explore_related]
    simp only []
    cases hdisk : mlookup (exploreFetchPhase web restart st a url t).st.disk
        (exploreFetchPhase web restart st a url t).path with
    | none => exact ⟨g1, g2, g3, g4, g5⟩
    | some content =>
      obtain ⟨c1, c2, c3, c4, c5⟩ := explore_children_A
        (fun s n h2 t2 => explore_related web dd restart s n h2 t2)
        (fun s n u2 b2 => ihd restart s n u2 b2)
        (content.map (fun p => (p.1, p.2, true)))
        ⟨(exploreFetchPhase web restart st a url t).st,
          (exploreFetchPhase web restart st a url t).asub,
          graphAdd [] a ((content.map (fun p => (p.1, p.2, true))).map
            (fun l => l.1)),
          (exploreFetchPhase web restart st a url t).fetches, []⟩
        st g1 g4 g5
      refine ⟨?_, ?_, ?_, ?_, ?_⟩
      · intro k v hk
        exact c1 k v (g1 k v hk)
      · intro p hp
        exact c2 p (g2 p hp)
      · intro hnd
        exact c3 (g3 hnd)
      · intro p hp
        exact c4 p hp
      · intro k v hkv
        exact c5 k v hkv

theorem explore_children_gsub_keysNodup
    (f : CrawlState → String → String → Bool → ExpRes) :
    ∀ (links : List (String × String × Bool)) (acc : ExpRes),
      (keysOf acc.gsub).Nodup →
      (keysOf (explore_children f links acc).gsub).Nodup := by
  intro links
  induction links with
  | nil =>
    intro acc hnd
    rw [explore_children_nil]
    exact hnd
  | cons link rest ih =>
    obtain ⟨n, u, b⟩ := link
    intro acc hnd
    rw [explore_children_cons]
    exact ih _ (keysNodup_mergeGraphInto _ _ hnd)

/-- Every graph delta an `explore_related` invocation returns has
pairwise-distinct keys. -/
theorem explore_gsub_keysNodup (web : Web) (d : Nat) (restart : Bool)
    (st : CrawlState) (a url : String) (t : Bool) :
    (keysOf (explore_related web d restart st a url t).gsub).Nodup := by
  have hbase : ∀ ns : List String, (keysOf (graphAdd [] a ns)).Nodup := by
    intro ns
    simp [graphAdd, keysOf]
  cases d with
  | zero =>
    rw [explore_related]
    simp only []
    cases hdisk : mlookup (exploreFetchPhase web restart st a url t).st.disk
        (exploreFetchPhase web restart st a url t).path with
    | none => simp [keysOf]
    | some content =>
      simp only [keysOf_dedupAll]
      exact hbase _
  | succ dd =>
    rw [explore_related]
    simp only []
    cases hdisk : mlookup (exploreFetchPhase web restart st a url t).st.disk
        (exploreFetchPhase web restart st a url t).path with
    | none => simp [keysOf]
    | some content =>
      simp only [keysOf_dedupAll]
      exact explore_children_gsub_keysNodup _ _ _ (hbase _)

theorem explore_children_calls_bound
    (f : CrawlState → String → String → Bool → ExpRes) (dd : Nat)
    (hf : ∀ s n u b, ∀ c ∈ (f s n u b).calls, c.2 ≤ dd) :
    ∀ (links : List (String × String × Bool)) (acc : ExpRes),
      ∀ c ∈ (explore_children f links acc).calls, c ∈ acc.calls ∨ c.2 ≤ dd := by
  intro links
  induction links with
  | nil =>
    intro acc c hc
    rw [explore_children_nil] at hc
    exact Or.inl hc
  | cons link rest ih =>
    obtain ⟨n, u, b⟩ := link
    intro acc c hc
    rw [explore_children_cons] at hc
    rcases ih _ c hc with h1 | h1
    · simp only [List.mem_append] at h1
      rcases h1 with h2 | h2
      · exact Or.inl h2
      · exact Or.inr (hf acc.st n u b c h2)
    · exact Or.inr h1

/-- Every `(article, depth)` invocation recorded by `explore_related`
carries a depth bounded by the initial depth. -/
theorem explore_calls_bound (web : Web) :
    ∀ (d : Nat) (restart : Bool) (st : CrawlState) (a url : String) (t : Bool),
      ∀ c ∈ (explore_related web d restart st a url t).calls, c.2 ≤ d := by
  intro d
  induction d with
  | zero =>
    intro restart st a url t c hc
    rw [explore_related] at hc
    simp only [] at hc
    revert hc
    cases hdisk : mlookup (exploreFetchPhase web restart st a url t).st.disk
        (exploreFetchPhase web restart st a url t).path with
    | none => intro hc; simp at hc; simp [hc]
    | some content => intro hc; simp at hc; simp [hc]
  | succ dd ihd =>
    intro restart st a url t c hc
    rw [explore_related] at hc
    simp only [] at hc
    revert hc
    cases hdisk : mlookup (exploreFetchPhase web restart st a url t).st.disk
        (exploreFetchPhase web restart st a url t).path with
    | none =>
      intro hc
      simp at hc
      simp [hc]
    | some content =>
      intro hc
      simp only [List.mem_cons] at hc
      rcases hc with hc | hc
      · simp [hc]
      · rcases explore_children_calls_bound _ dd
          (fun s n u b => ihd restart s n u b) _ _ c hc with h1 | h1
        · simp at h1
        · exact Nat.le_succ_of_le h1

/-- At depth 0 the only recorded invocation is the root itself. -/
theorem explore_calls_zero (web : Web) (restart : Bool) (st : CrawlState)
    (a url : String) (t : Bool) :
    (explore_related web 0 restart st a url t).calls = [(a, 0)] := by
  rw [explore_related]
  simp only []
  cases hdisk : mlookup (exploreFetchPhase web restart st a url t).st.disk
      (exploreFetchPhase web restart st a url t).path with
  | none => rfl
  | some content => rfl

/-- The fetch attempts of the download/load section open the invocation's
fetch log. -/
theorem explore_fetches_acc (web : Web) (d : Nat) (restart : Bool)
    (st : CrawlState) (a url : String) (t : Bool) :
    ∃ more, (explore_related web d restart st a url t).fetches =
      (exploreFetchPhase web restart st a url t).fetches ++ more := by
  cases d with
  | zero =>
    rw [explore_related]
    simp only []
    cases hdisk : mlookup (exploreFetchPhase web restart st a url t).st.disk
        (exploreFetchPhase web restart st a url t).path with
    | none => exact ⟨[], by simp⟩
    | some content => exact ⟨[], by simp⟩
  | succ dd =>
    rw [explore_related]
    simp only []
    cases hdisk : mlookup (exploreFetchPhase web restart st a url t).st.disk
        (exploreFetchPhase web restart st a url t).path with
    | none => exact ⟨[], by simp⟩
    | some content =>
      obtain ⟨m, hm⟩ := explore_children_fetches_acc
        (fun s n h2 t2 => explore_related web dd restart s n h2 t2)
        (content.map (fun p => (p.1, p.2, true)))
        ⟨(exploreFetchPhase web restart st a url t).st,
          (exploreFetchPhase web restart st a url t).asub,
          graphAdd [] a ((content.map (fun p => (p.1, p.2, true))).map
            (fun l => l.1)),
          (exploreFetchPhase web restart st a url t).fetches, []⟩
      exact ⟨m, hm⟩

theorem mlookup_some_mem_keys {α : Type} {m : List (String × α)}
    {k : String} {v : α} (h : mlookup m k = some v) : k ∈ keysOf m :=
  List.mem_map_of_mem Prod.fst (mlookup_mem h)

/-- The invocation itself is recorded in its own call log. -/
theorem explore_calls_mem_root (web : Web) (d : Nat) (restart : Bool)
    (st : CrawlState) (a url : String) (t : Bool) :
    (a, d) ∈ (explore_related web d restart st a url t).calls := by
  cases d with
  | zero =>
    rw [explore_calls_zero]
    simp
  | succ dd =>
    rw [explore_related]
    simp only []
    cases hdisk : mlookup (exploreFetchPhase web restart st a url t).st.disk
        (exploreFetchPhase web restart st a url t).path with
    | none => simp
    | some content => simp

/-- If every node the fan-out visits is already known in the state it is
visited from, the fan-out changes nothing and fetches nothing. -/
theorem explore_children_NF
    (f : CrawlState → String → String → Bool → ExpRes)
    (hf : ∀ s n u b,
      (∀ c ∈ (f s n u b).calls, mlookup s.articleMap c.1 ≠ none) →
      (f s n u b).st = s ∧ (f s n u b).asub = [] ∧ (f s n u b).fetches = []) :
    ∀ (links : List (String × String × Bool)) (acc : ExpRes),
      (∀ c ∈ (explore_children f links acc).calls,
        mlookup acc.st.articleMap c.1 ≠ none) →
      (explore_children f links acc).st = acc.st ∧
      (explore_children f links acc).asub = acc.asub ∧
      (explore_children f links acc).fetches = acc.fetches := by
  intro links
  induction links with
  | nil =>
    intro acc _
    rw [explore_children_nil]
    exact ⟨rfl, rfl, rfl⟩
  | cons link rest ih =>
    obtain ⟨n, u, b⟩ := link
    intro acc hcalls
    rw [explore_children_cons] at hcalls ⊢
    have hsubcalls : ∀ c ∈ (f acc.st n u b).calls,
        mlookup acc.st.articleMap c.1 ≠ none := by
      intro c hc
      obtain ⟨m, hm⟩ := explore_children_calls_acc f rest
        ⟨(f acc.st n u b).st, dictUpdate acc.asub (f acc.st n u b).asub,
          mergeGraphInto acc.gsub (f acc.st n u b).gsub,
          acc.fetches ++ (f acc.st n u b).fetches,
          acc.calls ++ (f acc.st n u b).calls⟩
      refine hcalls c ?_
      rw [hm]
      simp only [ExpRes.calls]
      exact List.mem_append_left _ (List.mem_append_right _ hc)
    obtain ⟨hst, hasub, hfet⟩ := hf acc.st n u b hsubcalls
    rw [hst, hasub, hfet] at hcalls ⊢
    have heq : (dictUpdate acc.asub [] : Registry) = acc.asub := rfl
    rw [heq] at hcalls ⊢
    rw [List.append_nil] at hcalls ⊢
    obtain ⟨r1, r2, r3⟩ := ih
      ⟨acc.st, acc.asub, mergeGraphInto acc.gsub (f acc.st n u b).gsub,
        acc.fetches, acc.calls ++ (f acc.st n u b).calls⟩
      hcalls
    exact ⟨r1, r2, r3⟩

/-- With `restart = false`, an invocation all of whose visited nodes are
already registered changes nothing: no state change, empty registry
delta, no fetch attempts. -/
theorem explore_NF (web : Web) :
    ∀ (d : Nat) (st : CrawlState) (a url : String) (t : Bool),
      (∀ c ∈ (explore_related web d false st a url t).calls,
        mlookup st.articleMap c.1 ≠ none) →
      (explore_related web d false st a url t).st = st ∧
      (explore_related web d false st a url t).asub = [] ∧
      (explore_related web d false st a url t).fetches = [] := by
  intro d
  induction d with
  | zero =>
    intro st a url t hcalls
    have hroot := hcalls (a, 0) (explore_calls_mem_root web 0 false st a url t)
    cases hr : mlookup st.articleMap a with
    | none => exact absurd hr hroot
    | some r =>
      rw [explore_related]
      simp only []
      rw [exploreFetchPhase_seen_norestart hr]
      simp only []
      cases hdisk : mlookup st.disk r.path with
      | none => exact ⟨rfl, rfl, rfl⟩
      | some content => exact ⟨rfl, rfl, rfl⟩
  | succ dd ihd =>
    intro st a url t hcalls
    have hroot := hcalls (a, dd + 1)
      (explore_calls_mem_root web (dd + 1) false st a url t)
    cases hr : mlookup st.articleMap a with
    | none => exact absurd hr hroot
    | some r =>
      rw [explore_related] at hcalls ⊢
      simp only [] at hcalls ⊢
      rw [exploreFetchPhase_seen_norestart hr] at hcalls ⊢
      simp only [] at hcalls ⊢
      revert hcalls
      cases hdisk : mlookup st.disk r.path with
      | none =>
        intro _
        exact ⟨rfl, rfl, rfl⟩
      | some content =>
        intro hcalls
        simp only [List.mem_cons] at hcalls
        have hsub : ∀ c ∈ (explore_children
            (fun s n h2 t2 => explore_related web dd false s n h2 t2)
            (content.map (fun p => (p.1, p.2, true)))
            ⟨st, [], graphAdd [] a ((content.map (fun p => (p.1, p.2, true))).map
              (fun l => l.1)), [], []⟩).calls,
            mlookup st.articleMap c.1 ≠ none := by
          intro c hc
          exact hcalls c (Or.inr hc)
        obtain ⟨hst, hasub, hfet⟩ := explore_children_NF _
          (fun s n u b hc => ihd s n u b hc) _ _ hsub
        exact ⟨hst, hasub, hfet⟩

/-- Depth-0 expansion of an already-registered node: nothing changes, no
fetch is attempted, and the graph delta has at most the node's own key. -/
theorem explore_zero_seen (web : Web) {st : CrawlState} {a : String}
    (url : String) (t : Bool) {r : ArticleData}
    (h : mlookup st.articleMap a = some r) :
    (explore_related web 0 false st a url t).st = st ∧
    (explore_related web 0 false st a url t).asub = [] ∧
    (explore_related web 0 false st a url t).fetches = [] ∧
    ((explore_related web 0 false st a url t).gsub = [] ∨
      ∃ vs, (explore_related web 0 false st a url t).gsub = [(a, vs)]) := by
  rw [explore_related]
  simp only []
  rw [exploreFetchPhase_seen_norestart h]
  simp only []
  cases hdisk : mlookup st.disk r.path with
  | none => exact ⟨rfl, rfl, rfl, Or.inl rfl⟩
  | some content =>
    refine ⟨rfl, rfl, rfl, Or.inr ?_⟩
    exact ⟨((content.map (fun p => (p.1, p.2, true))).map
      (fun l => l.1)).dedup, by simp [graphAdd, dedupAll]⟩

/-! ### Driver-loop lemmas -/

/-- A traversal with `restart = false` every one of whose visited nodes
is already in the registry leaves the state untouched and fetches
nothing. -/
theorem mainLoop_NF (web : Web) (depth : Nat) (article_map : Registry) :
    ∀ (seeds : List String) (st : CrawlState) (g : Graph),
      (∀ c ∈ (mainLoop web depth false article_map seeds st g).calls,
        mlookup st.articleMap c.1 ≠ none) →
      (mainLoop web depth false article_map seeds st g).st = st ∧
      (mainLoop web depth false article_map seeds st g).fetches = [] := by
  intro seeds
  induction seeds with
  | nil =>
    intro st g _
    exact ⟨rfl, rfl⟩
  | cons article rest ih =>
    intro st g
    rw [mainLoop]
    simp only []
    split
    · intro hcalls
      exact ih st g hcalls
    · split
      · intro hcalls
        exact ih st g hcalls
      · intro hcalls
        rename_i r ham hd
        obtain ⟨hst, hasub, hfet⟩ := explore_NF web depth st article r.link true
          (fun c hc => hcalls c (List.mem_append_left _ hc))
        rw [hst, hasub, hfet] at hcalls ⊢
        have hupd : dictUpdate st.articleMap ([] : Registry) = st.articleMap := rfl
        rw [hupd] at hcalls ⊢
        have hmk : (⟨st.articleMap, st.disk⟩ : CrawlState) = st := rfl
        rw [hmk] at hcalls ⊢
        simp only [List.nil_append] at hcalls ⊢
        exact ih st _ (fun c hc => hcalls c (List.mem_append_right _ hc))

/-- The driver loop at depth 0 with `restart = false`: the shared state
never changes, nothing is fetched, and the graph's key list never
changes. -/
theorem mainLoop_zero (web : Web) (sm : Registry) :
    ∀ (seeds : List String) (st : CrawlState) (g : Graph),
      st.articleMap = sm → keysOf g = keysOf sm →
      (mainLoop web 0 false sm seeds st g).st = st ∧
      (mainLoop web 0 false sm seeds st g).fetches = [] ∧
      keysOf (mainLoop web 0 false sm seeds st g).graph = keysOf sm := by
  intro seeds
  induction seeds with
  | nil =>
    intro st g _ hg
    exact ⟨rfl, rfl, hg⟩
  | cons article rest ih =>
    intro st g hmap hg
    rw [mainLoop]
    simp only []
    split
    · exact ih st g hmap hg
    · split
      · exact ih st g hmap hg
      · rename_i r ham hd
        have hseen : mlookup st.articleMap article = some r := by
          rw [hmap]; exact ham
        obtain ⟨hst, hasub, hfet, hgsub⟩ :=
          explore_zero_seen web r.link true hseen
        rw [hst, hasub, hfet]
        have hupd : dictUpdate st.articleMap ([] : Registry) = st.articleMap := rfl
        rw [hupd]
        have hmk : (⟨st.articleMap, st.disk⟩ : CrawlState) = st := rfl
        rw [hmk]
        have hkeys : keysOf (mergeGraphInto g
            (explore_related web 0 false st article r.link true).gsub) =
            keysOf sm := by
          rcases hgsub with hgs | ⟨vs, hgs⟩
          · rw [hgs, mergeGraphInto_nil, hg]
          · rw [hgs, mergeGraphInto_cons, mergeGraphInto_nil]
            rw [keysOf_graphAdd_mem vs (by
              rw [hg]
              exact mlookup_some_mem_keys ham), hg]
        obtain ⟨r1, r2, r3⟩ := ih st _ hmap hkeys
        refine ⟨r1, ?_, r3⟩
        simp [r2]

/-- The registry delta after the download/load section is either empty or
the single freshly-inserted record for the target identifier. -/
theorem exploreFetchPhase_asub_shape (web : Web) (restart : Bool)
    (st : CrawlState) (a url : String) (t : Bool) :
    (exploreFetchPhase web restart st a url t).asub = [] ∨
    ∃ dat, (exploreFetchPhase web restart st a url t).asub = [(a, dat)] := by
  cases hr : mlookup st.articleMap a with
  | some r =>
    cases restart with
    | false => rw [exploreFetchPhase_seen_norestart hr]; exact Or.inl rfl
    | true => rw [exploreFetchPhase_seen_restart hr]; exact Or.inl rfl
  | none =>
    rw [exploreFetchPhase_unseen hr]
    exact Or.inr ⟨_, rfl⟩

/-- Every edge list in a returned graph delta is the image of a
`List.dedup`. -/
theorem explore_gsub_dedup (web : Web) (d : Nat) (restart : Bool)
    (st : CrawlState) (a url : String) (t : Bool) :
    ∀ e ∈ (explore_related web d restart st a url t).gsub,
      ∃ vs : List String, e.2 = List.dedup vs := by
  cases d with
  | zero =>
    rw [explore_related]
    simp only []
    cases hdisk : mlookup (exploreFetchPhase web restart st a url t).st.disk
        (exploreFetchPhase web restart st a url t).path with
    | none => intro e he; simp at he
    | some content => intro e he; exact mem_dedupAll he
  | succ dd =>
    rw [explore_related]
    simp only []
    cases hdisk : mlookup (exploreFetchPhase web restart st a url t).st.disk
        (exploreFetchPhase web restart st a url t).path with
    | none => intro e he; simp at he
    | some content => intro e he; exact mem_dedupAll he

/-! ### Claim theorems -/

/-- Claim C1: recursive (and driver-level) graph deltas are merged by
unioning edge-sets per identifier key, never by replacing an existing
key's set — an element is in the merged edge-set of a key exactly when it
is in either operand's edge-set for that key, so an identifier expanded
via two parents ends with the union of both contributions.  The key-nodup
side condition is satisfied by every delta `explore_related` returns
(second conjunct). -/
theorem C1_merge_unions_edge_sets :
    (∀ (g sub : Graph), (keysOf sub).Nodup → ∀ k x,
      x ∈ edges (mergeGraphInto g sub) k ↔
        x ∈ edges g k ∨ x ∈ edges sub k) ∧
    (∀ (web : Web) (d : Nat) (restart : Bool) (st : CrawlState)
      (a url : String) (t : Bool),
      (keysOf (explore_related web d restart st a url t).gsub).Nodup) :=
  ⟨fun _ _ hnd k x => mem_edges_mergeGraphInto hnd k x,
    fun web d restart st a url t =>
      explore_gsub_keysNodup web d restart st a url t⟩

/-- Witness for C1 at a concrete merge: distinct contributions from two
deltas for the same key end up united. -/
theorem C1_merge_unions_edge_sets_witness :
    (keysOf ([("X", ["B"])] : Graph)).Nodup ∧
    ("A" ∈ edges (mergeGraphInto [("X", ["A"])] [("X", ["B"])]) "X" ↔
      "A" ∈ edges [("X", ["A"])] "X" ∨ "A" ∈ edges [("X", ["B"])] "X") :=
  ⟨by decide,
    C1_merge_unions_edge_sets.1 [("X", ["A"])] [("X", ["B"])] (by decide)
      "X" "A"⟩

/-- Claim C2 as stated is false: when the target identifier was unseen,
`explore_related` inserts it into the registry delta *before* the
missing-file check, so the registry delta returned on a missing file is
not empty.  Here the identifier "A" is unseen, the web serves nothing
(the fetch fails), the file is missing, and the returned registry delta
is nonempty. -/
theorem C2_counterexample :
    (explore_related [] 1 false ⟨[], []⟩ "A" "uA" true).gsub = [] ∧
    (explore_related [] 1 false ⟨[], []⟩ "A" "uA" true).asub ≠ [] ∧
    (explore_related [] 1 false ⟨[], []⟩ "A" "uA" true).asub =
      [("A", ⟨"./data/term/A.html", "uA"⟩)] := by
  decide

/-- Claim C2 amended: when the local file is missing after the fetch
step, the invocation returns an empty *graph* delta and performs no
recursion (its call log is just the root); the registry delta is returned
as it stands, which is either empty or exactly the record inserted for
the target identifier in this same invocation. -/
theorem C2_missing_file_skips (web : Web) (d : Nat) (restart : Bool)
    (st : CrawlState) (a url : String) (t : Bool)
    (h : mlookup (exploreFetchPhase web restart st a url t).st.disk
      (exploreFetchPhase web restart st a url t).path = none) :
    explore_related web d restart st a url t =
      ⟨(exploreFetchPhase web restart st a url t).st,
        (exploreFetchPhase web restart st a url t).asub, [],
        (exploreFetchPhase web restart st a url t).fetches, [(a, d)]⟩ ∧
    ((exploreFetchPhase web restart st a url t).asub = [] ∨
      ∃ dat, (exploreFetchPhase web restart st a url t).asub = [(a, dat)]) := by
  refine ⟨?_, exploreFetchPhase_asub_shape web restart st a url t⟩
  cases d with
  | zero =>
    rw [explore_related]
    simp only []
    rw [h]
  | succ dd =>
    rw [explore_related]
    simp only []
    rw [h]

/-- Witness for C2 amended at the counterexample's environment. -/
theorem C2_missing_file_skips_witness :
    mlookup (exploreFetchPhase [] false ⟨[], []⟩ "A" "uA" true).st.disk
      (exploreFetchPhase [] false ⟨[], []⟩ "A" "uA" true).path = none ∧
    (explore_related [] 1 false ⟨[], []⟩ "A" "uA" true =
      ⟨(exploreFetchPhase [] false ⟨[], []⟩ "A" "uA" true).st,
        (exploreFetchPhase [] false ⟨[], []⟩ "A" "uA" true).asub, [],
        (exploreFetchPhase [] false ⟨[], []⟩ "A" "uA" true).fetches,
        [("A", 1)]⟩ ∧
      ((exploreFetchPhase [] false ⟨[], []⟩ "A" "uA" true).asub = [] ∨
        ∃ dat, (exploreFetchPhase [] false ⟨[], []⟩ "A" "uA" true).asub =
          [("A", dat)])) :=
  ⟨by decide, C2_missing_file_skips [] 1 false ⟨[], []⟩ "A" "uA" true (by decide)⟩

/-- Claim C3: every edge list in a returned graph delta holds each
reference at most once, and the collapse step is idempotent. -/
theorem C3_edge_dedup :
    (∀ (web : Web) (d : Nat) (restart : Bool) (st : CrawlState)
      (a url : String) (t : Bool),
      ∀ e ∈ (explore_related web d restart st a url t).gsub,
        ∀ x, e.2.count x ≤ 1) ∧
    (∀ g : Graph, dedupAll (dedupAll g) = dedupAll g) := by
  constructor
  · intro web d restart st a url t e he x
    obtain ⟨vs, hvs⟩ := explore_gsub_dedup web d restart st a url t e he
    rw [hvs]
    exact List.nodup_iff_count_le_one.mp (List.nodup_dedup vs) x
  · intro g
    exact dedupAll_dedupAll g

/-- Witness for C3: a node whose content lists the same reference twice
gets an edge list holding it once. -/
theorem C3_edge_dedup_witness :
    ("A", ["B"]) ∈ (explore_related []
      0 false ⟨[("A", ⟨"pA", "uA"⟩)], [("pA", [("B", "u"), ("B", "u")])]⟩
      "A" "uA" true).gsub ∧
    (("A", ["B"]) : String × List String).2.count "B" ≤ 1 :=
  ⟨by decide,
    C3_edge_dedup.1 [] 0 false
      ⟨[("A", ⟨"pA", "uA"⟩)], [("pA", [("B", "u"), ("B", "u")])]⟩
      "A" "uA" true ("A", ["B"]) (by decide) "B"⟩

/-- Claim C4: the traversal terminates with bounded recursion — every
invocation recorded in the call log of `explore_related` at initial depth
`d` carries a depth at most `d` (each recursive level passes `depth - 1`),
and at depth 0 no recursion happens at all: the call log is just the
root.  Termination itself is witnessed by `explore_related` being a total
function (structural recursion on the depth budget). -/
theorem C4_depth_termination :
    (∀ (web : Web) (d : Nat) (restart : Bool) (st : CrawlState)
      (a url : String) (t : Bool),
      ∀ c ∈ (explore_related web d restart st a url t).calls, c.2 ≤ d) ∧
    (∀ (web : Web) (restart : Bool) (st : CrawlState) (a url : String)
      (t : Bool),
      (explore_related web 0 restart st a url t).calls = [(a, 0)]) :=
  ⟨fun web d restart st a url t => explore_calls_bound web d restart st a url t,
    fun web restart st a url t => explore_calls_zero web restart st a url t⟩

/-- Witness for C4 on a cyclic one-node graph ("A" links to itself). -/
theorem C4_depth_termination_witness :
    ("A", 1) ∈ (explore_related []
      2 false ⟨[("A", ⟨"pA", "uA"⟩)], [("pA", [("A", "uA")])]⟩
      "A" "uA" true).calls ∧
    (("A", 1) : String × Nat).2 ≤ 2 :=
  ⟨by decide,
    C4_depth_termination.1 [] 2 false
      ⟨[("A", ⟨"pA", "uA"⟩)], [("pA", [("A", "uA")])]⟩
      "A" "uA" true ("A", 1) (by decide)⟩

/-- Claim C5 as stated is false: at initial depth 0 the traversal does
*not* fetch or register the seeds' direct references — fetching of a
discovered reference happens only inside the recursive call, which is
guarded by `depth > 0`.  Concretely: "Bond" is the only seed, its content
references "Yield", and after the depth-0 run "Yield" appears as an edge
of "Bond" but the output registry is the unchanged seed registry, which
does not contain "Yield", and no fetch was attempted. -/
theorem C5_counterexample :
    (main [] (some [("Bond", ⟨"./data/term/Bond.html", "ub"⟩)])
      [("./data/term/Bond.html", [("Yield", "uy")])] 0 false).expandedMap =
      some [("Bond", ⟨"./data/term/Bond.html", "ub"⟩)] ∧
    mlookup [("Bond", (⟨"./data/term/Bond.html", "ub"⟩ : ArticleData))]
      "Yield" = none ∧
    (main [] (some [("Bond", ⟨"./data/term/Bond.html", "ub"⟩)])
      [("./data/term/Bond.html", [("Yield", "uy")])] 0 false).graph =
      some [("Bond", ["Yield"])] ∧
    (main [] (some [("Bond", ⟨"./data/term/Bond.html", "ub"⟩)])
      [("./data/term/Bond.html", [("Yield", "uy")])] 0 false).fetches = [] := by
  decide

/-- Claim C5 amended: at depth 0 (with no forced refetch) the traversal
parses each seed's existing content and records its direct outbound
references as edges of the seeds only: it performs no fetches, the output
registry is exactly the seed registry (it does not grow at all), and the
graph's keys are exactly the seed identifiers — in particular there are
no entries keyed by the newly-discovered leaf identifiers. -/
theorem C5_depth_zero (web : Web) (sm : Registry) (disk0 : Disk) :
    (main web (some sm) disk0 0 false).expandedMap = some sm ∧
    (main web (some sm) disk0 0 false).fetches = [] ∧
    Option.map keysOf (main web (some sm) disk0 0 false).graph =
      some (keysOf sm) := by
  rw [main]
  have hkeys : keysOf (sm.map (fun kv => (kv.1, ([] : List String)))) =
      keysOf sm := by
    simp [keysOf]
  obtain ⟨h1, h2, h3⟩ := mainLoop_zero web sm (keysOf sm) ⟨sm, disk0⟩
    (sm.map (fun kv => (kv.1, []))) rfl hkeys
  refine ⟨?_, h2, ?_⟩
  · rw [h1]
  · simp [keysOf_dedupAll, h3]

/-- Claim C6 as stated is false: with `restart` set and the identifier
already present in the registry, `explore_related` takes the
already-seen branch, which only re-reads the existing path and
re-downloads the content — it does **not** overwrite the registry entry
and records nothing in the registry delta.  Concretely: "A" is known, the
run has `restart = true`, a fetch is attempted at the recorded path, yet
the returned registry delta is empty. -/
theorem C6_counterexample :
    (explore_related [] 0 true ⟨[("A", ⟨"pA", "uA"⟩)], [("pA", [])]⟩
      "A" "uA" true).asub = [] ∧
    (explore_related [] 0 true ⟨[("A", ⟨"pA", "uA"⟩)], [("pA", [])]⟩
      "A" "uA" true).st.articleMap = [("A", ⟨"pA", "uA"⟩)] ∧
    (explore_related [] 0 true ⟨[("A", ⟨"pA", "uA"⟩)], [("pA", [])]⟩
      "A" "uA" true).fetches = [("uA", "pA")] := by
  decide

/-- Claim C6 amended: with `restart` set and the identifier already
registered, the existing registry entry is left untouched (it is still
looked up unchanged at return time), nothing about it is recorded in the
returned registry delta, and the content is re-downloaded at the
recorded path (the fetch attempt appears in the fetch log).  Insertion
into registry and delta happens only for unseen identifiers. -/
theorem C6_restart_no_overwrite (web : Web) (d : Nat) (st : CrawlState)
    (a url : String) (t : Bool) (r : ArticleData)
    (h : mlookup st.articleMap a = some r) :
    mlookup (explore_related web d true st a url t).st.articleMap a = some r ∧
    mlookup (explore_related web d true st a url t).asub a = none ∧
    (url, r.path) ∈ (explore_related web d true st a url t).fetches := by
  have hA := explore_A web d true st a url t
  refine ⟨hA.1 a r h, ?_, ?_⟩
  · cases hs : mlookup (explore_related web d true st a url t).asub a with
    | none => rfl
    | some v =>
      have hnone := hA.2.2.2.2 a v (mlookup_mem hs)
      rw [h] at hnone
      simp at hnone
  · obtain ⟨more, hm⟩ := explore_fetches_acc web d true st a url t
    rw [exploreFetchPhase_seen_restart h] at hm
    rw [hm]
    exact List.mem_append_left _ (List.mem_singleton_self _)

/-- Witness for C6 amended at the counterexample's environment. -/
theorem C6_restart_no_overwrite_witness :
    mlookup ((⟨[("A", ⟨"pA", "uA"⟩)], [("pA", [])]⟩ : CrawlState)).articleMap
      "A" = some ⟨"pA", "uA"⟩ ∧
    (mlookup (explore_related [] 0 true ⟨[("A", ⟨"pA", "uA"⟩)], [("pA", [])]⟩
      "A" "uA" true).st.articleMap "A" = some ⟨"pA", "uA"⟩ ∧
    mlookup (explore_related [] 0 true ⟨[("A", ⟨"pA", "uA"⟩)], [("pA", [])]⟩
      "A" "uA" true).asub "A" = none ∧
    ("uA", (⟨"pA", "uA"⟩ : ArticleData).path) ∈
      (explore_related [] 0 true ⟨[("A", ⟨"pA", "uA"⟩)], [("pA", [])]⟩
        "A" "uA" true).fetches) :=
  ⟨by decide,
    C6_restart_no_overwrite [] 0 ⟨[("A", ⟨"pA", "uA"⟩)], [("pA", [])]⟩
      "A" "uA" true ⟨"pA", "uA"⟩ (by decide)⟩

/-- Claim C7: a traversal with `restart = false` over a registry that
already contains every identifier the traversal visits performs no
fetches and leaves the shared state exactly as it started, so running the
traversal again — from the registry and the on-disk content the first run
left behind — produces the identical result (in particular the identical
graph, with no edges beyond the first run's).  `mainLoop` is the
traversal `main` performs between loading the seed registry and writing
the artifacts, started on the driver's actual initial accumulators. -/
theorem C7_idempotent_rerun (web : Web) (sm : Registry) (disk0 : Disk)
    (depth : Nat)
    (h : ∀ c ∈ (mainLoop web depth false sm (keysOf sm) ⟨sm, disk0⟩
      (sm.map (fun kv => (kv.1, [])))).calls, mlookup sm c.1 ≠ none) :
    (mainLoop web depth false sm (keysOf sm) ⟨sm, disk0⟩
      (sm.map (fun kv => (kv.1, [])))).fetches = [] ∧
    (mainLoop web depth false sm (keysOf sm) ⟨sm, disk0⟩
      (sm.map (fun kv => (kv.1, [])))).st = ⟨sm, disk0⟩ ∧
    mainLoop web depth false sm (keysOf sm)
      (mainLoop web depth false sm (keysOf sm) ⟨sm, disk0⟩
        (sm.map (fun kv => (kv.1, [])))).st
      (sm.map (fun kv => (kv.1, []))) =
      mainLoop web depth false sm (keysOf sm) ⟨sm, disk0⟩
        (sm.map (fun kv => (kv.1, []))) := by
  obtain ⟨h1, h2⟩ := mainLoop_NF web depth sm (keysOf sm) ⟨sm, disk0⟩
    (sm.map (fun kv => (kv.1, []))) h
  exact ⟨h2, h1, by rw [h1]⟩

/-- Witness for C7: a one-seed registry already containing everything the
depth-1 traversal visits. -/
theorem C7_idempotent_rerun_witness :
    (∀ c ∈ (mainLoop [] 1 false [("A", ⟨"pA", "uA"⟩)]
      (keysOf [("A", (⟨"pA", "uA"⟩ : ArticleData))]) ⟨[("A", ⟨"pA", "uA"⟩)], [("pA", [])]⟩
      ([("A", (⟨"pA", "uA"⟩ : ArticleData))].map (fun kv => (kv.1, [])))).calls,
      mlookup [("A", (⟨"pA", "uA"⟩ : ArticleData))] c.1 ≠ none) ∧
    ((mainLoop [] 1 false [("A", ⟨"pA", "uA"⟩)]
      (keysOf [("A", (⟨"pA", "uA"⟩ : ArticleData))]) ⟨[("A", ⟨"pA", "uA"⟩)], [("pA", [])]⟩
      ([("A", (⟨"pA", "uA"⟩ : ArticleData))].map (fun kv => (kv.1, [])))).fetches = [] ∧
    (mainLoop [] 1 false [("A", ⟨"pA", "uA"⟩)]
      (keysOf [("A", (⟨"pA", "uA"⟩ : ArticleData))]) ⟨[("A", ⟨"pA", "uA"⟩)], [("pA", [])]⟩
      ([("A", (⟨"pA", "uA"⟩ : ArticleData))].map (fun kv => (kv.1, [])))).st =
      ⟨[("A", ⟨"pA", "uA"⟩)], [("pA", [])]⟩ ∧
    mainLoop [] 1 false [("A", ⟨"pA", "uA"⟩)] (keysOf [("A", (⟨"pA", "uA"⟩ : ArticleData))])
      (mainLoop [] 1 false [("A", ⟨"pA", "uA"⟩)]
        (keysOf [("A", (⟨"pA", "uA"⟩ : ArticleData))]) ⟨[("A", ⟨"pA", "uA"⟩)], [("pA", [])]⟩
        ([("A", (⟨"pA", "uA"⟩ : ArticleData))].map (fun kv => (kv.1, [])))).st
      ([("A", (⟨"pA", "uA"⟩ : ArticleData))].map (fun kv => (kv.1, []))) =
      mainLoop [] 1 false [("A", ⟨"pA", "uA"⟩)]
        (keysOf [("A", (⟨"pA", "uA"⟩ : ArticleData))]) ⟨[("A", ⟨"pA", "uA"⟩)], [("pA", [])]⟩
        ([("A", (⟨"pA", "uA"⟩ : ArticleData))].map (fun kv => (kv.1, [])))) :=
  ⟨by decide,
    C7_idempotent_rerun [] [("A", ⟨"pA", "uA"⟩)] [("pA", [])] 1 (by decide)⟩

/-- Claim C8: a first-encountered identifier gets its destination path
built as the configured folder, then the identifier with every path
separator replaced by "-", then the ".html" extension; the fetch is
attempted at exactly that path, and the substituted name never contains a
path separator. -/
theorem C8_safe_path_construction (web : Web) (restart : Bool)
    (st : CrawlState) (a url : String) (t : Bool)
    (h : mlookup st.articleMap a = none) :
    (exploreFetchPhase web restart st a url t).asub =
      [(a, ⟨relatedFolder t ++ cleanName a ++ ".html", url⟩)] ∧
    (exploreFetchPhase web restart st a url t).fetches =
      [(url, relatedFolder t ++ cleanName a ++ ".html")] ∧
    ∀ s : String, '/' ∉ (cleanName s).data := by
  refine ⟨?_, ?_, ?_⟩
  · rw [exploreFetchPhase_unseen h]
  · rw [exploreFetchPhase_unseen h]
  · intro s hx
    simp [cleanName] at hx
    obtain ⟨c, _, hc⟩ := hx
    by_cases h2 : c = '/'
    · rw [if_pos h2] at hc
      exact absurd hc (by decide)
    · rw [if_neg h2] at hc
      exact h2 hc

/-- Witness for C8 on a path-unsafe identifier. -/
theorem C8_safe_path_construction_witness :
    mlookup ((⟨[], []⟩ : CrawlState)).articleMap "a/b" = none ∧
    (exploreFetchPhase [] false ⟨[], []⟩ "a/b" "u" true).asub =
      [("a/b", ⟨relatedFolder true ++ cleanName "a/b" ++ ".html", "u"⟩)] :=
  ⟨by decide,
    (C8_safe_path_construction [] false ⟨[], []⟩ "a/b" "u" true (by decide)).1⟩

/-- Claim C9: every identifier-record pair of a returned registry delta
is also present, with the same record, in the shared registry at return
time (assuming the usual dict invariant that the incoming registry has
distinct keys). -/
theorem C9_delta_sub_map (web : Web) (d : Nat) (restart : Bool)
    (st : CrawlState) (a url : String) (t : Bool) (k : String)
    (v : ArticleData) (hnd : (keysOf st.articleMap).Nodup)
    (h : mlookup (explore_related web d restart st a url t).asub k = some v) :
    mlookup (explore_related web d restart st a url t).st.articleMap k =
      some v := by
  have hA := explore_A web d restart st a url t
  exact mem_mlookup (hA.2.2.1 hnd) (hA.2.2.2.1 _ (mlookup_mem h))

/-- Witness for C9: the newly-registered "B" is in the delta and in the
shared map with the same record. -/
theorem C9_delta_sub_map_witness :
    ((keysOf ((⟨[("A", ⟨"pA", "uA"⟩)], [("pA", [("B", "uB")])]⟩ :
        CrawlState)).articleMap).Nodup ∧
      mlookup (explore_related [("uB", [])] 1 false
        ⟨[("A", ⟨"pA", "uA"⟩)], [("pA", [("B", "uB")])]⟩ "A" "uA" true).asub
        "B" = some ⟨"./data/term/B.html", "uB"⟩) ∧
    mlookup (explore_related [("uB", [])] 1 false
      ⟨[("A", ⟨"pA", "uA"⟩)], [("pA", [("B", "uB")])]⟩ "A" "uA" true).st.articleMap
      "B" = some ⟨"./data/term/B.html", "uB"⟩ :=
  ⟨⟨by decide, by decide⟩,
    C9_delta_sub_map [("uB", [])] 1 false
      ⟨[("A", ⟨"pA", "uA"⟩)], [("pA", [("B", "uB")])]⟩ "A" "uA" true
      "B" ⟨"./data/term/B.html", "uB"⟩ (by decide) (by decide)⟩

/-- Claim C10: the driver exits with code 1 — producing no artifacts,
attempting no fetch, making no traversal invocation — when the seed
registry file is absent, and exits with code 0 when it is present. -/
theorem C10_exit_codes :
    (∀ (web : Web) (disk0 : Disk) (depth : Nat) (restart : Bool),
      (main web none disk0 depth restart).exitCode = 1 ∧
      (main web none disk0 depth restart).calls = [] ∧
      (main web none disk0 depth restart).fetches = [] ∧
      (main web none disk0 depth restart).expandedMap = none ∧
      (main web none disk0 depth restart).graph = none) ∧
    (∀ (web : Web) (sm : Registry) (disk0 : Disk) (depth : Nat)
      (restart : Bool),
      (main web (some sm) disk0 depth restart).exitCode = 0) := by
  constructor
  · intro web disk0 depth restart
    exact ⟨rfl, rfl, rfl, rfl, rfl⟩
  · intro web sm disk0 depth restart
    rfl

end InvestopediaGraph
